import Mathlib

/-!
Verification development for the REST-client request execution core
(`src/httpClient.ts`) and the curl-syntax request parser
(`CurlRequestParser`).  JavaScript strings are modelled as Lean `String`
(or `List Char` where character-level reasoning is needed), JavaScript
objects used as string-keyed dictionaries are modelled as insertion-ordered
association lists with overwriting assignment (`upsert`), and `null` /
`undefined` values are modelled with `Option`.
-/

/-- JavaScript truthiness of a string-or-null value: `null`, `undefined`
and the empty string are falsy. -/
def jsTruthyStr (o : Option String) : Bool :=
  match o with
  | none => false
  | some s => s ≠ ""

/-- JavaScript object property read `m[k]` on a string-keyed dictionary. -/
def alookup (m : List (String × String)) (k : String) : Option String :=
  m.findSome? (fun kv => if kv.1 = k then some kv.2 else none)

/-- JavaScript object property write `m[k] = v`: overwrite in place when the
key exists (keeping its insertion position), otherwise append. -/
def upsert (m : List (String × String)) (k v : String) : List (String × String) :=
  if m.any (fun kv => kv.1 = k) then
    m.map (fun kv => if kv.1 = k then (k, v) else kv)
  else
    m ++ [(k, v)]

/-- JavaScript `String.prototype.indexOf(' ')`, returning `none` for `-1`. -/
def firstSpace : List Char → Option Nat
  | [] => none
  | c :: rest => if c = ' ' then some 0 else (firstSpace rest).map (· + 1)

/-- JavaScript `String.prototype.split(' ')` (single-character separator):
never returns an empty list, and empty fields are kept. -/
def splitCh : List Char → List (List Char)
  | [] => [[]]
  | c :: rest =>
    let r := splitCh rest
    if c = ' ' then [] :: r
    else
      match r with
      | [] => [[c]]
      | h :: t => (c :: h) :: t

/-- JavaScript `String.prototype.trim()`: strip whitespace from both ends. -/
def jsTrim (l : List Char) : List Char :=
  ((l.dropWhile (fun c => c.isWhitespace)).reverse.dropWhile
    (fun c => c.isWhitespace)).reverse

/-- JavaScript `String.prototype.toLowerCase()`, modelled character-wise
(the headers and hosts involved are ASCII). -/
def jsToLower (s : String) : String := String.mk (s.data.map Char.toLower)

/-- JavaScript `String.prototype.split(':')` on a string (single-character
separator), keeping empty fields; never returns an empty list. -/
def splitColonAux : List Char → List (List Char)
  | [] => [[]]
  | c :: rest =>
    let r := splitColonAux rest
    if c = ':' then [] :: r
    else
      match r with
      | [] => [[c]]
      | h :: t => (c :: h) :: t

/-- `eh.split(":")` as used by `ignoreProxy` (httpClient.ts line 225). -/
def splitColon (s : String) : List String := (splitColonAux s.data).map String.mk

/-- Transport credentials produced by the `options.auth` assignment in
`HttpClient.send` (httpClient.ts lines 51-55). -/
structure AuthOptions where
  user : List Char
  pass : List Char
  sendImmediately : Bool
deriving Repr, DecidableEq

/-- The authentication-detection step of `HttpClient.send`
(httpClient.ts lines 43-58), for a present `Authorization` header value:
`start = value.indexOf(' ')`, `scheme = value.substr(0, start)`; when the
scheme is `Digest` or `Basic`, split `value.substr(start).trim()` on spaces
and, when exactly two components result, produce transport credentials with
`sendImmediately` true exactly for `Basic`.  `indexOf` returning `-1` makes
`substr(0, -1)` the empty string, which matches neither scheme. -/
def detectAuth (authorization : List Char) : Option AuthOptions :=
  match firstSpace authorization with
  | none => none
  | some start =>
    let scheme := String.mk (authorization.take start)
    if scheme = "Digest" ∨ scheme = "Basic" then
      match splitCh (jsTrim (authorization.drop start)) with
      | [u, p] => some { user := u, pass := p, sendImmediately := scheme = "Basic" }
      | _ => none
    else none

/-- The scheme token extracted by the authentication-detection step:
`value.substr(0, value.indexOf(' '))`, the empty string when there is no
space. -/
def authScheme (authorization : List Char) : List Char :=
  match firstSpace authorization with
  | none => []
  | some start => authorization.take start

/-- The space-separated components of the post-scheme part,
`value.substr(start).trim().split(' ')`; when there is no space at all the
whole (trimmed) value is split. -/
def authParams (authorization : List Char) : List (List Char) :=
  match firstSpace authorization with
  | none => splitCh (jsTrim authorization)
  | some start => splitCh (jsTrim (authorization.drop start))

/-- `HttpClient.getHeaderValue` (httpClient.ts lines 159-169): first entry
whose key equals the queried name after lowercasing both; `null` when the
mapping is `null` or no key matches. -/
def getHeaderValue (headers : Option (List (String × String))) (headerName : String) :
    Option String :=
  match headers with
  | none => none
  | some hs =>
    hs.findSome? (fun kv => if jsToLower kv.1 = jsToLower headerName then some kv.2 else none)

/-- The auth-detection step applied inside `send`: look up the
`Authorization` header (truthiness-checked) and run detection on its value;
the header mapping itself is passed through untouched. -/
def applyAuthDetection (headers : Option (List (String × String))) :
    Option AuthOptions × Option (List (String × String)) :=
  let authorization := getHeaderValue headers "Authorization"
  if jsTruthyStr authorization then
    (detectAuth (authorization.getD "").data, headers)
  else
    (none, headers)

example : detectAuth "Basic u p".data = some ⟨"u".data, "p".data, true⟩ := by decide
example : detectAuth "Digest u p".data = some ⟨"u".data, "p".data, false⟩ := by decide
example : detectAuth "Basic dXNlcg==".data = none := by decide
example : detectAuth "Bearer a b".data = none := by decide
example : detectAuth "Basic a b c".data = none := by decide
example : authScheme "NoSpacesHere".data = [] := by decide

/-- `HttpClient.getResponseRawHeaderNames` (httpClient.ts lines 205-211):
fold the raw header name list into a dictionary keyed by the lowercased
name, later names overwriting earlier ones. -/
def getResponseRawHeaderNames (rawHeaders : List String) : List (String × String) :=
  rawHeaders.foldl (fun result header => upsert result (jsToLower header) header) []

/-- The header-case-adjustment loop body of `HttpClient.send`
(httpClient.ts lines 115-125): for one transport header entry, write the
value under the original-case name when the raw-name dictionary has one
(the code then also writes `adjustedHeaderName`, which at that point equals
the same original-case name), otherwise under the key as iterated. -/
def adjustStep (headersDic : List (String × String))
    (acc : List (String × String)) (kv : String × String) : List (String × String) :=
  match alookup headersDic kv.1 with
  | some orig => upsert (upsert acc orig kv.2) orig kv.2
  | none => upsert acc kv.1 kv.2

/-- The full header-case adjustment of `HttpClient.send`
(httpClient.ts lines 115-125): iterate the transport header mapping in
insertion order, accumulating into an initially empty dictionary. -/
def adjustResponseHeaders (rawHeaders : List String)
    (headers : List (String × String)) : List (String × String) :=
  headers.foldl (adjustStep (getResponseRawHeaderNames rawHeaders)) []

/-- The per-entry matching rule of `HttpClient.ignoreProxy` (httpClient.ts
lines 223-239), on an already lowercased entry: an entry that splits on
`:` into one part matches on hostname alone (in both the port-less and
ported request branches of the source); an entry that splits into two
parts matches only in the ported branch, on hostname and port. -/
def proxyEntryMatch (hostName : String) (port : Option String) (eh : String) : Bool :=
  let urlParts := splitColon eh
  match port with
  | none => urlParts.length = 1 && urlParts.headD "" = hostName
  | some p =>
    (urlParts.length = 1 && urlParts.headD "" = hostName) ||
    (urlParts.length = 2 && urlParts.headD "" = hostName && urlParts.getD 1 "" = p)

/-- `HttpClient.ignoreProxy` (httpClient.ts lines 213-242), taking the
already-parsed hostname and optional port of the request URL (`url.parse`
is an external collaborator): `false` on a `null` or empty exclusion
list, else lowercase the hostname and the entries, deduplicate the
entries (`Array.from(new Set(...))`), and return whether some entry
matches per `proxyEntryMatch`. -/
def ignoreProxy (hostname : String) (port : Option String)
    (excludeHostsForProxy : Option (List String)) : Bool :=
  match excludeHostsForProxy with
  | none => false
  | some l =>
    if l.length = 0 then false
    else
      let hostName := jsToLower hostname
      let excludeHostsProxyList := (l.map jsToLower).dedup
      excludeHostsProxyList.any (proxyEntryMatch hostName port)

/-- Spec-side matching rule for one (already lowercased) exclusion entry,
written from the words of the proxy-bypass contract: an entry without a
port matches on hostname alone whether or not the request has a port; an
entry with a port matches only when both hostname and port equal the
request values. -/
def entryMatchesSpec (hostname : String) (port : Option String) (eh : String) : Prop :=
  match splitColon eh with
  | [h] => h = jsToLower hostname
  | [h, p] => h = jsToLower hostname ∧ port = some p
  | _ => False

/-- The proxy/strict-TLS option assignments of `HttpClient.send`
(httpClient.ts lines 67-69): `options.proxy` is `null` on bypass and the
configured proxy otherwise. -/
def proxyOption (settingsProxy : Option String) (hostname : String)
    (port : Option String) (excludeHostsForProxy : Option (List String)) : Option String :=
  if ignoreProxy hostname port excludeHostsForProxy then none else settingsProxy

/-- `options.strictSSL = options.proxy && options.proxy.length > 0 ?
settings.proxyStrictSSL : false` (httpClient.ts line 69). -/
def strictSSLOption (settingsProxy : Option String) (proxyStrictSSL : Bool)
    (hostname : String) (port : Option String)
    (excludeHostsForProxy : Option (List String)) : Bool :=
  match proxyOption settingsProxy hostname port excludeHostsForProxy with
  | none => false
  | some p => if p ≠ "" ∧ p.length > 0 then proxyStrictSSL else false

/-- The user-agent defaulting step of `HttpClient.send` (httpClient.ts
lines 75-78): inject the default exactly when the `User-Agent` lookup via
`getHeaderValue` is falsy. -/
def userAgentStep (headers : List (String × String)) (defaultUserAgent : String) :
    List (String × String) :=
  if jsTruthyStr (getHeaderValue (some headers) "User-Agent") then headers
  else upsert headers "User-Agent" defaultUserAgent

/-- Whether the user-agent defaulting step fires. -/
def userAgentInjected (headers : List (String × String)) : Bool :=
  !(jsTruthyStr (getHeaderValue (some headers) "User-Agent"))

/-- The decoded body value: a successfully decoded text, or the raw bytes
left in `body` when the single-charset fast path threw with charset
`utf8`. -/
inductive BodyValue where
  | text (s : String)
  | raw (bytes : List Nat)
deriving Repr, DecidableEq

/-- The body-decoding step of `HttpClient.send` (httpClient.ts lines
105-113), with the external `iconv.decode` passed in as a function that can
fail.  A failed decode with a non-`utf8` charset is retried as `utf8`
(whose own failure would escape the `catch` and is surfaced as an error);
a failed decode with charset `utf8` leaves `body` holding the raw bytes. -/
def decodeBody (decode : String → List Nat → Except String String)
    (encoding : String) (buffer : List Nat) : Except String BodyValue :=
  match decode encoding buffer with
  | .ok s => .ok (.text s)
  | .error _e =>
    if encoding ≠ "utf8" then
      match decode "utf8" buffer with
      | .ok s => .ok (.text s)
      | .error e2 => .error e2
    else .ok (.raw buffer)

/-- JavaScript `String.prototype.startsWith`. -/
def jsStartsWith (s pre : String) : Bool := pre.data.isPrefixOf s.data

/-- The error-message prefix special-cased by `send`
(httpClient.ts line 86). -/
def headerTokenErrMsg : String := "Header name must be a valid HTTP Token"

/-- The user-facing replacement message (httpClient.ts lines 87-88). -/
def friendlyHeaderMsg : String :=
  "Header must be in \x27header name: header value\x27 format, please also make sure there is a blank line between headers and body"

/-- A transport-level error delivered to the dispatch callback; `message`
may be absent. -/
structure TransportError where
  message : Option String
deriving Repr, DecidableEq

/-- The error-message rewrite of `send` (httpClient.ts lines 84-90): only
an error whose message starts with the header-token prefix has its message
replaced; every other error is left as is. -/
def rewriteTransportError (e : TransportError) : TransportError :=
  match e.message with
  | some m =>
    if jsStartsWith m headerTokenErrMsg then { message := some friendlyHeaderMsg } else e
  | none => e

/-- The raw transport response as delivered by the `request` package:
lowercase-keyed header mapping plus the raw original-case header name
list, and the body as raw bytes. -/
structure RawResponse where
  statusCode : Nat
  statusMessage : String
  httpVersion : String
  headers : List (String × String)
  rawHeaders : List String
  body : List Nat
deriving Repr, DecidableEq

/-- The normalized response assembled by `send` (the fields the claims
are about: status line data, case-adjusted headers, decoded body). -/
structure RespModel where
  statusCode : Nat
  statusMessage : String
  httpVersion : String
  headers : List (String × String)
  body : Except String BodyValue
deriving Repr

/-- The dispatch-callback portion of `HttpClient.send` (httpClient.ts lines
82-146): an error rejects with the (possibly rewritten) error; a response
is normalized — charset determined from the `Content-Type` header through
the external MIME table `charsetOf`, body decoded with fallback, header
case restored. -/
def sendModel (decode : String → List Nat → Except String String)
    (charsetOf : String → Option String)
    (dispatch : Except TransportError RawResponse) : Except TransportError RespModel :=
  match dispatch with
  | .error e => .error (rewriteTransportError e)
  | .ok r =>
    let contentType := getHeaderValue (some r.headers) "Content-Type"
    let enc0 : Option String :=
      if jsTruthyStr contentType then charsetOf (contentType.getD "") else none
    let encoding := if jsTruthyStr enc0 then enc0.getD "" else "utf8"
    .ok { statusCode := r.statusCode
          statusMessage := r.statusMessage
          httpVersion := r.httpVersion
          headers := adjustResponseHeaders r.rawHeaders r.headers
          body := decodeBody decode encoding r.body }

/-- The flag values `CurlRequestParser.parseHttpRequest` reads from the
external `yargs` tokenizer (part_000 lines 37-46); absent flags are
`none`. -/
structure ParsedCurlArgs where
  X : Option String
  request : Option String
  d : Option String
  data : Option String
  dataBinary : Option String
deriving Repr, DecidableEq

/-- JavaScript `a || b` on string-or-undefined values. -/
def jsOrStr (a b : Option String) : Option String :=
  if jsTruthyStr a then a else b

/-- Body extraction of `CurlRequestParser.parseHttpRequest` (part_000
line 38): first truthy among `-d`, `--data`, `--data-binary`. -/
def curlBody (args : ParsedCurlArgs) : Option String :=
  jsOrStr args.d (jsOrStr args.data args.dataBinary)

/-- Method selection of `CurlRequestParser.parseHttpRequest` (part_000
lines 41-44): explicit `-X`/`--request` value when truthy, else `POST`
when a body was extracted, else `GET`. -/
def curlMethod (args : ParsedCurlArgs) : String :=
  let method := jsOrStr args.X args.request
  if jsTruthyStr method then method.getD ""
  else if jsTruthyStr (curlBody args) then "POST" else "GET"


/-! ### Helper lemmas: splitting, trimming and space search -/

theorem splitCh_ne_nil (l : List Char) : splitCh l ≠ [] := by
  induction l with
  | nil => simp [splitCh]
  | cons c rest ih =>
    simp only [splitCh]
    by_cases hc : c = ' '
    · simp [hc]
    · simp only [if_neg hc]
      rcases h : splitCh rest with - | ⟨h1, t1⟩
      · simp
      · simp

theorem splitCh_no_space (l : List Char) (h : ∀ c ∈ l, c ≠ ' ') : splitCh l = [l] := by
  induction l with
  | nil => simp [splitCh]
  | cons c rest ih =>
    have hc : c ≠ ' ' := h c (by simp)
    have hr : splitCh rest = [rest] := ih (fun x hx => h x (by simp [hx]))
    simp [splitCh, hc, hr]

theorem splitCh_append_space (u p : List Char) (h : ∀ c ∈ u, c ≠ ' ') :
    splitCh (u ++ ' ' :: p) = u :: splitCh p := by
  induction u with
  | nil => simp [splitCh]
  | cons c rest ih =>
    have hc : c ≠ ' ' := h c (by simp)
    have hr : splitCh (rest ++ ' ' :: p) = rest :: splitCh p :=
      ih (fun x hx => h x (by simp [hx]))
    simp [splitCh, hc, hr]

theorem dropWhile_ws_front (l r : List Char) (hne : l ≠ [])
    (h : ∀ c ∈ l, ¬c.isWhitespace) :
    (l ++ r).dropWhile (fun c => c.isWhitespace) = l ++ r := by
  cases l with
  | nil => exact absurd rfl hne
  | cons c t =>
    have hc : c.isWhitespace = false := by
      have := h c (by simp)
      simpa using this
    simp [List.dropWhile_cons, hc]

theorem jsTrim_space_sandwich (u p : List Char)
    (hu : u ≠ [] ∧ ∀ c ∈ u, ¬c.isWhitespace)
    (hp : p ≠ [] ∧ ∀ c ∈ p, ¬c.isWhitespace) :
    jsTrim (' ' :: (u ++ ' ' :: p)) = u ++ ' ' :: p := by
  unfold jsTrim
  have hsp : (' ' : Char).isWhitespace = true := by decide
  rw [List.dropWhile_cons]
  simp only [hsp, if_pos]
  rw [dropWhile_ws_front u (' ' :: p) hu.1 hu.2]
  have hrev : (u ++ ' ' :: p).reverse = p.reverse ++ (' ' :: u.reverse) := by
    simp
  rw [hrev]
  rw [dropWhile_ws_front p.reverse (' ' :: u.reverse)
    (by simpa using hp.1) (fun c hc => hp.2 c (List.mem_reverse.mp hc))]
  simp

theorem firstSpace_eq_none (a : List Char) (h : ∀ c ∈ a, c ≠ ' ') :
    firstSpace a = none := by
  induction a with
  | nil => rfl
  | cons c t ih =>
    have hc : c ≠ ' ' := h c (by simp)
    have ht := ih (fun x hx => h x (by simp [hx]))
    simp [firstSpace, hc, ht]

theorem firstSpace_append (l rest : List Char) (h : ∀ c ∈ l, c ≠ ' ') :
    firstSpace (l ++ ' ' :: rest) = some l.length := by
  induction l with
  | nil => simp [firstSpace]
  | cons c t ih =>
    have hc : c ≠ ' ' := h c (by simp)
    have ht := ih (fun x hx => h x (by simp [hx]))
    simp [firstSpace, hc, ht]

theorem detectAuth_scheme_split (l rest : List Char) (h : ∀ c ∈ l, c ≠ ' ') :
    detectAuth (l ++ ' ' :: rest) =
      if String.mk l = "Digest" ∨ String.mk l = "Basic" then
        match splitCh (jsTrim (' ' :: rest)) with
        | [u, p] =>
          some { user := u, pass := p, sendImmediately := String.mk l = "Basic" }
        | _ => none
      else none := by
  unfold detectAuth
  rw [firstSpace_append l rest h]
  simp only [List.take_left, List.drop_left]

/-- C2: for an `Authorization` value that is a `Basic` or `Digest` scheme
token followed by exactly two space-separated components `u p`, the
executor sets transport credentials with user `u`, password `p` and
`sendImmediately` true exactly for `Basic`; when the post-scheme part
splits into any number of components other than two, no credentials are
set; and the auth-detection step never changes the header mapping. -/
theorem auth_detection_two_components (u p : List Char)
    (hu : u ≠ [] ∧ ∀ c ∈ u, ¬c.isWhitespace)
    (hp : p ≠ [] ∧ ∀ c ∈ p, ¬c.isWhitespace) :
    detectAuth ("Basic".data ++ ' ' :: (u ++ ' ' :: p)) =
      some { user := u, pass := p, sendImmediately := true } ∧
    detectAuth ("Digest".data ++ ' ' :: (u ++ ' ' :: p)) =
      some { user := u, pass := p, sendImmediately := false } ∧
    (∀ a : List Char, (authParams a).length ≠ 2 → detectAuth a = none) ∧
    (∀ hs : Option (List (String × String)), (applyAuthDetection hs).2 = hs) := by
  have hnsU : ∀ c ∈ u, c ≠ ' ' := fun c hc heq => hu.2 c hc (heq ▸ (by decide))
  have hnsP : ∀ c ∈ p, c ≠ ' ' := fun c hc heq => hp.2 c hc (heq ▸ (by decide))
  have hsplit : splitCh (jsTrim (' ' :: (u ++ ' ' :: p))) = [u, p] := by
    rw [jsTrim_space_sandwich u p hu hp, splitCh_append_space u p hnsU,
      splitCh_no_space p hnsP]
  refine ⟨?_, ?_, ?_, ?_⟩
  · rw [detectAuth_scheme_split "Basic".data (u ++ ' ' :: p) (by decide), hsplit]
    simp
  · rw [detectAuth_scheme_split "Digest".data (u ++ ' ' :: p) (by decide), hsplit]
    simp
  · intro a ha
    unfold authParams at ha
    unfold detectAuth
    cases hfs : firstSpace a with
    | none => simp
    | some start =>
      simp only [hfs] at ha ⊢
      by_cases hsch : String.mk (a.take start) = "Digest" ∨
          String.mk (a.take start) = "Basic"
      · simp only [if_pos hsch]
        rcases hsp : splitCh (jsTrim (a.drop start)) with - | ⟨x, - | ⟨y, - | ⟨z, t⟩⟩⟩
        · rfl
        · rfl
        · exact absurd (by rw [hsp]; rfl) ha
        · rfl
      · simp [if_neg hsch]
  · intro hs
    by_cases htr : jsTruthyStr (getHeaderValue hs "Authorization") = true <;>
      simp [applyAuthDetection, htr]

/-- Witness for C2 at `u = user1`, `p = pass1`. -/
theorem auth_detection_two_components_witness :
    detectAuth ("Basic".data ++ ' ' :: ("user1".data ++ ' ' :: "pass1".data)) =
      some { user := "user1".data, pass := "pass1".data, sendImmediately := true } ∧
    detectAuth ("Digest".data ++ ' ' :: ("user1".data ++ ' ' :: "pass1".data)) =
      some { user := "user1".data, pass := "pass1".data, sendImmediately := false } :=
  ⟨(auth_detection_two_components "user1".data "pass1".data (by decide) (by decide)).1,
   (auth_detection_two_components "user1".data "pass1".data (by decide) (by decide)).2.1⟩

/-- C9: for an `Authorization` header value containing no space, the
authentication-detection step is a safe no-op: the extracted scheme is
empty, no transport credentials are produced (the model is a total
function, so no exception can arise), and the header mapping is passed
through unchanged. -/
theorem auth_no_space_noop (a : List Char) (h : ∀ c ∈ a, c ≠ ' ') :
    authScheme a = [] ∧ detectAuth a = none ∧
    ∀ hs : Option (List (String × String)), (applyAuthDetection hs).2 = hs := by
  have hfs := firstSpace_eq_none a h
  refine ⟨by simp [authScheme, hfs], by simp [detectAuth, hfs], fun hs => ?_⟩
  by_cases htr : jsTruthyStr (getHeaderValue hs "Authorization") = true <;>
    simp [applyAuthDetection, htr]

/-- Witness for C9 at a spaceless `Authorization` value. -/
theorem auth_no_space_noop_witness :
    authScheme "Basic_dXNlcjpwYXNz".data = [] ∧
    detectAuth "Basic_dXNlcjpwYXNz".data = none :=
  ⟨(auth_no_space_noop "Basic_dXNlcjpwYXNz".data (by decide)).1,
   (auth_no_space_noop "Basic_dXNlcjpwYXNz".data (by decide)).2.1⟩

theorem proxyEntryMatch_iff (hostname : String) (port : Option String) (x : String) :
    proxyEntryMatch (jsToLower hostname) port x = true ↔ entryMatchesSpec hostname port x := by
  unfold proxyEntryMatch entryMatchesSpec
  cases port with
  | none =>
    rcases hsp : splitColon x with - | ⟨h, - | ⟨p2, - | ⟨q, t⟩⟩⟩ <;> simp [hsp]
  | some val =>
    rcases hsp : splitColon x with - | ⟨h, - | ⟨p2, - | ⟨q, t⟩⟩⟩ <;> simp [hsp]
    exact fun _ => eq_comm

/-- C3: `ignoreProxy` returns true exactly when the exclusion list is
present, non-empty, and some entry matches after lowercasing — a port-less
entry matching on hostname alone whether or not the request has a port, a
ported entry matching on hostname and port; and the four concrete
evaluations from the spec hold. -/
theorem proxy_bypass_characterization :
    (∀ (hostname : String) (port : Option String) (ex : Option (List String)),
      ignoreProxy hostname port ex = true ↔
        ∃ l, ex = some l ∧ l ≠ [] ∧
          ∃ eh ∈ l, entryMatchesSpec hostname port (jsToLower eh)) ∧
    ignoreProxy "example.com" none (some ["example.com", "foo.com:8080"]) = true ∧
    ignoreProxy "example.com" (some "9999") (some ["example.com", "foo.com:8080"]) = true ∧
    ignoreProxy "foo.com" (some "8080") (some ["example.com", "foo.com:8080"]) = true ∧
    ignoreProxy "foo.com" (some "9090") (some ["example.com", "foo.com:8080"]) = false := by
  refine ⟨?_, by decide, by decide, by decide, by decide⟩
  intro hostname port ex
  cases ex with
  | none => simp [ignoreProxy]
  | some l =>
    by_cases hl : l = []
    · subst hl; simp [ignoreProxy]
    · have hlen : ¬ l.length = 0 := by simpa using hl
      simp only [ignoreProxy, if_neg hlen]
      rw [List.any_eq_true]
      constructor
      · rintro ⟨x, hx, hpx⟩
        rw [List.mem_dedup, List.mem_map] at hx
        obtain ⟨eh, heh, rfl⟩ := hx
        exact ⟨l, rfl, hl, eh, heh, (proxyEntryMatch_iff hostname port (jsToLower eh)).mp hpx⟩
      · rintro ⟨l2, hl2, -, eh, heh, hm⟩
        obtain rfl : l2 = l := (Option.some.inj hl2).symm
        refine ⟨jsToLower eh, ?_, (proxyEntryMatch_iff hostname port (jsToLower eh)).mpr hm⟩
        rw [List.mem_dedup, List.mem_map]
        exact ⟨eh, heh, rfl⟩

/-- A concrete decoder used by witnesses: decoding succeeds only for the
`utf8` charset. -/
def decodeStub : String → List Nat → Except String String :=
  fun enc _b => if enc = "utf8" then .ok "decoded-utf8" else .error "unsupported"

/-- C4: if decoding the body with the declared charset fails and that
charset is not `utf8`, the body is decoded as `utf8` instead; and (under
the collaborator guarantee that `utf8` decoding itself always succeeds,
which is how `iconv-lite` behaves) body decoding never surfaces an error. -/
theorem charset_fallback_decoding
    (decode : String → List Nat → Except String String)
    (encoding : String) (buffer : List Nat)
    (hutf : ∀ b, ∃ s, decode "utf8" b = .ok s) :
    (∀ e, decode encoding buffer = .error e → encoding ≠ "utf8" →
      decodeBody decode encoding buffer = (decode "utf8" buffer).map BodyValue.text) ∧
    (∃ v, decodeBody decode encoding buffer = .ok v) := by
  constructor
  · intro e he hne
    unfold decodeBody
    rw [he]
    obtain ⟨s, hs⟩ := hutf buffer
    simp [hne, hs, Except.map]
  · unfold decodeBody
    cases hd : decode encoding buffer with
    | ok s => exact ⟨.text s, rfl⟩
    | error e =>
      by_cases hne : encoding = "utf8"
      · subst hne
        simp
      · obtain ⟨s, hs⟩ := hutf buffer
        simp [hne, hs]

/-- Witness for C4: invalid bytes under charset `latin1` fall back to the
`utf8` decode and no error surfaces. -/
theorem charset_fallback_decoding_witness :
    decodeBody decodeStub "latin1" [255] = (decodeStub "utf8" [255]).map BodyValue.text ∧
    (∃ v, decodeBody decodeStub "latin1" [255] = .ok v) :=
  ⟨(charset_fallback_decoding decodeStub "latin1" [255]
      (fun _b => ⟨"decoded-utf8", rfl⟩)).1 "unsupported" rfl (by decide),
   (charset_fallback_decoding decodeStub "latin1" [255]
      (fun _b => ⟨"decoded-utf8", rfl⟩)).2⟩

/-- C5: a dispatch yielding a transport error always rejects (never
resolves); the error message is replaced by the user-facing explanation
exactly when it starts with the header-token prefix, and is propagated
verbatim otherwise (also when absent). -/
theorem transport_error_propagation
    (decode : String → List Nat → Except String String)
    (charsetOf : String → Option String) (e : TransportError) :
    (∀ r : RespModel, sendModel decode charsetOf (.error e) ≠ .ok r) ∧
    (∀ m, e.message = some m → jsStartsWith m headerTokenErrMsg = true →
      sendModel decode charsetOf (.error e) = .error { message := some friendlyHeaderMsg }) ∧
    (∀ m, e.message = some m → jsStartsWith m headerTokenErrMsg = false →
      sendModel decode charsetOf (.error e) = .error e) ∧
    (e.message = none → sendModel decode charsetOf (.error e) = .error e) := by
  refine ⟨?_, ?_, ?_, ?_⟩
  · intro r h
    simp [sendModel] at h
  · intro m hm hpre
    simp [sendModel, rewriteTransportError, hm, hpre]
  · intro m hm hpre
    simp [sendModel, rewriteTransportError, hm, hpre]
  · intro hm
    simp [sendModel, rewriteTransportError, hm]

/-- Witness for C5 at a matching and a non-matching message. -/
theorem transport_error_propagation_witness :
    sendModel decodeStub (fun _ => none)
        (.error { message := some "Header name must be a valid HTTP Token [\"bad header\"]" }) =
      .error { message := some friendlyHeaderMsg } ∧
    sendModel decodeStub (fun _ => none)
        (.error { message := some "socket hang up" }) =
      .error { message := some "socket hang up" } :=
  ⟨(transport_error_propagation decodeStub (fun _ => none)
      { message := some "Header name must be a valid HTTP Token [\"bad header\"]" }).2.1
      _ rfl (by decide),
   (transport_error_propagation decodeStub (fun _ => none)
      { message := some "socket hang up" }).2.2.1 _ rfl (by decide)⟩

theorem length_pos_of_ne_empty (p : String) (h : p ≠ "") : p.length > 0 := by
  cases p with
  | mk data =>
    cases data with
    | nil => exact absurd rfl h
    | cons c t => simp [String.length]

/-- C6: the transport `strictSSL` option equals the Settings
proxy-strict-TLS flag exactly when a non-empty proxy string is in effect
(configured and not bypassed); whenever no proxy is in effect — bypass
indicated, proxy absent, or proxy empty — it is `false`. -/
theorem proxy_strict_tls_gating (settingsProxy : Option String) (flag : Bool)
    (hostname : String) (port : Option String) (ex : Option (List String)) :
    (∀ p, proxyOption settingsProxy hostname port ex = some p → p ≠ "" →
      strictSSLOption settingsProxy flag hostname port ex = flag) ∧
    (proxyOption settingsProxy hostname port ex = none →
      strictSSLOption settingsProxy flag hostname port ex = false) ∧
    (proxyOption settingsProxy hostname port ex = some "" →
      strictSSLOption settingsProxy flag hostname port ex = false) ∧
    (flag = true →
      (strictSSLOption settingsProxy flag hostname port ex = true ↔
        ∃ p, proxyOption settingsProxy hostname port ex = some p ∧ p ≠ "")) := by
  refine ⟨?_, ?_, ?_, ?_⟩
  · intro p hp hne
    unfold strictSSLOption
    rw [hp]
    simp [hne, length_pos_of_ne_empty p hne]
  · intro hp
    unfold strictSSLOption
    rw [hp]
  · intro hp
    unfold strictSSLOption
    rw [hp]
    simp
  · intro hflag
    subst hflag
    constructor
    · intro h
      unfold strictSSLOption at h
      cases hp : proxyOption settingsProxy hostname port ex with
      | none => rw [hp] at h; exact absurd h (by simp)
      | some p =>
        rw [hp] at h
        by_cases hne : p = ""
        · subst hne; simp at h
        · exact ⟨p, rfl, hne⟩
    · rintro ⟨p, hp, hne⟩
      unfold strictSSLOption
      rw [hp]
      simp [hne, length_pos_of_ne_empty p hne]

/-- Witness for C6: with a configured non-empty proxy and no exclusions the
flag is honored; with an empty proxy it is forced off. -/
theorem proxy_strict_tls_gating_witness :
    strictSSLOption (some "http://127.0.0.1:8888") true "example.com" none none = true ∧
    strictSSLOption (some "") true "example.com" none none = false :=
  ⟨(proxy_strict_tls_gating (some "http://127.0.0.1:8888") true "example.com" none none).1
      "http://127.0.0.1:8888" rfl (by decide),
   (proxy_strict_tls_gating (some "") true "example.com" none none).2.2.1 rfl⟩

/-- C7: the method of the parsed curl request is the truthy `-X`/`--request`
value when one is given (`-X` taking precedence), else `POST` exactly when
a body was extracted from `-d`/`--data`/`--data-binary`, else `GET`. -/
theorem curl_method_selection (args : ParsedCurlArgs) :
    (∀ m, args.X = some m → m ≠ "" → curlMethod args = m) ∧
    (jsTruthyStr args.X = false → ∀ m, args.request = some m → m ≠ "" →
      curlMethod args = m) ∧
    (jsTruthyStr args.X = false → jsTruthyStr args.request = false →
      jsTruthyStr (curlBody args) = true → curlMethod args = "POST") ∧
    (jsTruthyStr args.X = false → jsTruthyStr args.request = false →
      jsTruthyStr (curlBody args) = false → curlMethod args = "GET") := by
  refine ⟨?_, ?_, ?_, ?_⟩
  · intro m hm hne
    unfold curlMethod jsOrStr
    have htr : jsTruthyStr args.X = true := by simp [jsTruthyStr, hm, hne]
    simp [htr, hm, jsTruthyStr, hne]
  · intro hX m hm hne
    have htr2 : jsTruthyStr (some m) = true := by simp [jsTruthyStr, hne]
    unfold curlMethod jsOrStr
    simp [hX, hm, htr2]
  · intro hX hreq hbody
    unfold curlMethod jsOrStr
    simp [hX, hreq, hbody]
  · intro hX hreq hbody
    unfold curlMethod jsOrStr
    simp [hX, hreq, hbody]

/-- Witness for C7: an explicit `-X PUT` wins; with no method flag, a
`--data` body forces `POST` and no body gives `GET`. -/
theorem curl_method_selection_witness :
    curlMethod ⟨some "PUT", none, none, none, none⟩ = "PUT" ∧
    curlMethod ⟨none, none, none, some "a=1", none⟩ = "POST" ∧
    curlMethod ⟨none, none, none, none, none⟩ = "GET" :=
  ⟨(curl_method_selection ⟨some "PUT", none, none, none, none⟩).1 "PUT" rfl (by decide),
   (curl_method_selection ⟨none, none, none, some "a=1", none⟩).2.2.1
      (by decide) (by decide) (by decide),
   (curl_method_selection ⟨none, none, none, none, none⟩).2.2.2
      (by decide) (by decide) (by decide)⟩

/-! ### Association-list lemmas for the JS-object model -/

theorem alookup_cons (kv : String × String) (m : List (String × String)) (q : String) :
    alookup (kv :: m) q = if kv.1 = q then some kv.2 else alookup m q := by
  unfold alookup
  rw [List.findSome?_cons]
  by_cases h : kv.1 = q
  · simp [h]
  · simp [h]

theorem alookup_mapf_ne (m : List (String × String)) (k v q : String) (hq : q ≠ k) :
    alookup (m.map (fun kv => if kv.1 = k then (k, v) else kv)) q = alookup m q := by
  induction m with
  | nil => rfl
  | cons a t ih =>
    rw [List.map_cons, alookup_cons, alookup_cons]
    by_cases ha : a.1 = k
    · simp only [if_pos ha]
      have h1 : ¬ ((k, v).1 = q) := fun he => hq he.symm
      have h2 : ¬ (a.1 = q) := fun he => hq (by rw [← he, ha])
      simp [h1, h2, ih]
    · simp only [if_neg ha]
      by_cases haq : a.1 = q
      · simp [haq]
      · simp [haq, ih]

theorem alookup_mapf_self (m : List (String × String)) (k v : String)
    (hc : m.any (fun kv => kv.1 = k) = true) :
    alookup (m.map (fun kv => if kv.1 = k then (k, v) else kv)) k = some v := by
  induction m with
  | nil => simp at hc
  | cons a t ih =>
    rw [List.map_cons, alookup_cons]
    by_cases ha : a.1 = k
    · simp [ha]
    · have hct : t.any (fun kv => kv.1 = k) = true := by
        rcases List.any_eq_true.mp hc with ⟨x, hx, hxk⟩
        rcases List.mem_cons.mp hx with rfl | hxt
        · exact absurd (of_decide_eq_true hxk) ha
        · exact List.any_eq_true.mpr ⟨x, hxt, hxk⟩
      simp [ha, ih hct]

theorem alookup_upsert (m : List (String × String)) (k v q : String) :
    alookup (upsert m k v) q = if q = k then some v else alookup m q := by
  unfold upsert
  by_cases hc : m.any (fun kv => kv.1 = k) = true
  · simp only [if_pos hc]
    by_cases hq : q = k
    · subst hq
      simp [alookup_mapf_self m q v hc]
    · simp [hq, alookup_mapf_ne m k v q hq]
  · simp only [if_neg hc]
    have hnk : ∀ kv ∈ m, ¬ (kv.1 = k) := fun kv hkv hk =>
      hc (List.any_eq_true.mpr ⟨kv, hkv, by simp [hk]⟩)
    unfold alookup
    rw [List.findSome?_append]
    by_cases hq : q = k
    · subst hq
      have hnone : m.findSome? (fun kv => if kv.1 = q then some kv.2 else none) = none := by
        rw [List.findSome?_eq_none_iff]
        intro kv hkv
        simp [hnk kv hkv]
      rw [hnone, Option.none_or]
      simp [List.findSome?_cons]
    · have hone : List.findSome?
          (fun kv => if kv.1 = q then some kv.2 else none) [(k, v)] = none := by
        have hkq : ¬ ((k, v).1 = q) := fun he => hq he.symm
        simp [List.findSome?_cons, hkq]
      rw [hone, Option.or_none, if_neg hq]

theorem mem_upsert (m : List (String × String)) (k v : String) (kv : String × String)
    (h : kv ∈ upsert m k v) : kv = (k, v) ∨ kv ∈ m := by
  unfold upsert at h
  by_cases hc : m.any (fun x => x.1 = k) = true
  · rw [if_pos hc] at h
    rcases List.mem_map.mp h with ⟨a, ha, hfa⟩
    by_cases hak : a.1 = k
    · rw [if_pos hak] at hfa
      exact Or.inl hfa.symm
    · rw [if_neg hak] at hfa
      exact Or.inr (hfa ▸ ha)
  · rw [if_neg hc] at h
    rcases List.mem_append.mp h with hm | hs
    · exact Or.inr hm
    · exact Or.inl (by simpa using hs)

theorem upsert_idem (m : List (String × String)) (k v : String) :
    upsert (upsert m k v) k v = upsert m k v := by
  have hff : ∀ x : String × String,
      (if ((if x.1 = k then (k, v) else x) : String × String).1 = k then (k, v)
        else if x.1 = k then (k, v) else x) = if x.1 = k then (k, v) else x := by
    intro x
    by_cases hx : x.1 = k <;> simp [hx]
  unfold upsert
  by_cases hc : m.any (fun kv => kv.1 = k) = true
  · simp only [if_pos hc]
    have hc2 : (m.map (fun kv => if kv.1 = k then (k, v) else kv)).any
        (fun kv => kv.1 = k) = true := by
      rcases List.any_eq_true.mp hc with ⟨x, hx, hxk⟩
      refine List.any_eq_true.mpr ⟨(k, v), List.mem_map.mpr ⟨x, hx, ?_⟩, by simp⟩
      simp [of_decide_eq_true hxk]
    rw [if_pos hc2, List.map_map]
    exact List.map_congr_left (fun a _ => hff a)
  · simp only [if_neg hc]
    have hnk : ∀ kv ∈ m, ¬ (kv.1 = k) := fun kv hkv hk =>
      hc (List.any_eq_true.mpr ⟨kv, hkv, by simp [hk]⟩)
    have hc2 : ((m ++ [(k, v)]).any (fun kv => kv.1 = k)) = true :=
      List.any_eq_true.mpr ⟨(k, v), by simp, by simp⟩
    rw [if_pos hc2, List.map_append]
    have hm : m.map (fun kv => if kv.1 = k then (k, v) else kv) = m := by
      have heach : ∀ a ∈ m, (if a.1 = k then (k, v) else a) = a := by
        intro a ha
        simp [hnk a ha]
      rw [List.map_congr_left heach]
      simp
    rw [hm]
    simp

theorem alookup_foldl_upsert {α : Type} (keyOf valOf : α → String)
    (xs : List α) (init : List (String × String)) (q : String) :
    alookup (xs.foldl (fun acc x => upsert acc (keyOf x) (valOf x)) init) q =
      match xs.reverse.find? (fun x => keyOf x = q) with
      | some x => some (valOf x)
      | none => alookup init q := by
  induction xs generalizing init with
  | nil => simp
  | cons x t ih =>
    rw [List.foldl_cons, ih, List.reverse_cons, List.find?_append]
    cases hf : t.reverse.find? (fun y => keyOf y = q) with
    | some y => rfl
    | none =>
      rw [Option.none_or, alookup_upsert]
      by_cases hx : keyOf x = q
      · simp [List.find?_cons, List.find?_nil, hx]
      · have hx2 : ¬ (q = keyOf x) := fun he => hx he.symm
        simp [List.find?_cons, List.find?_nil, hx, hx2]

theorem mem_foldl_upsert {α : Type} (keyOf valOf : α → String)
    (xs : List α) (init : List (String × String)) (kv : String × String)
    (h : kv ∈ xs.foldl (fun acc x => upsert acc (keyOf x) (valOf x)) init) :
    kv ∈ init ∨ ∃ x ∈ xs, kv = (keyOf x, valOf x) := by
  induction xs generalizing init with
  | nil => exact Or.inl h
  | cons x t ih =>
    rw [List.foldl_cons] at h
    rcases ih (upsert init (keyOf x) (valOf x)) h with hin | ⟨y, hy, rfl⟩
    · rcases mem_upsert init (keyOf x) (valOf x) kv hin with rfl | hin2
      · exact Or.inr ⟨x, by simp, rfl⟩
      · exact Or.inl hin2
    · exact Or.inr ⟨y, by simp [hy], rfl⟩

theorem find?_unique {α : Type} (p : α → Bool) (l : List α) (a : α)
    (ha : a ∈ l) (hpa : p a = true) (huniq : ∀ x ∈ l, p x = true → x = a) :
    l.find? p = some a := by
  induction l with
  | nil => cases ha
  | cons x t ih =>
    rw [List.find?_cons]
    by_cases hx : p x = true
    · have : x = a := huniq x (by simp) hx
      subst this
      simp [hx]
    · have hxa : x ≠ a := fun he => hx (he ▸ hpa)
      have ha2 : a ∈ t := by
        rcases List.mem_cons.mp ha with heq | h2
        · exact absurd heq.symm hxa
        · exact h2
      have hfx : p x = false := by simpa using hx
      simp only [hfx]
      exact ih ha2 (fun y hy hpy => huniq y (by simp [hy]) hpy)

theorem alookup_of_mem_nodup (m : List (String × String)) (h v : String)
    (hmem : (h, v) ∈ m) (hnd : (m.map Prod.fst).Nodup) :
    alookup m h = some v := by
  induction m with
  | nil => cases hmem
  | cons a t ih =>
    rw [List.map_cons] at hnd
    have hnd2 := List.nodup_cons.mp hnd
    rw [alookup_cons]
    rcases List.mem_cons.mp hmem with heq | hmem2
    · rw [← heq]
      simp
    · by_cases ha : a.1 = h
      · have hin : h ∈ t.map Prod.fst := List.mem_map.mpr ⟨(h, v), hmem2, rfl⟩
        exact absurd (show a.1 ∈ t.map Prod.fst from ha.symm ▸ hin) hnd2.1
      · rw [if_neg ha]
        exact ih hmem2 hnd2.2

/-- The key under which one transport header entry ends up in the adjusted
mapping: the original-case raw name when the raw-name dictionary has one,
the key itself otherwise (`adjustedHeaderName` in httpClient.ts lines
119-124). -/
def adjKey (dic : List (String × String)) (h : String) : String :=
  match alookup dic h with
  | some orig => orig
  | none => h

theorem adjustStep_eq (dic acc : List (String × String)) (kv : String × String) :
    adjustStep dic acc kv = upsert acc (adjKey dic kv.1) kv.2 := by
  unfold adjustStep adjKey
  cases h : alookup dic kv.1 with
  | some orig => exact upsert_idem acc orig kv.2
  | none => rfl

theorem alookup_dic (rawHeaders : List String) (q : String) :
    alookup (getResponseRawHeaderNames rawHeaders) q =
      match rawHeaders.reverse.find? (fun h => jsToLower h = q) with
      | some h => some h
      | none => none := by
  have h1 := alookup_foldl_upsert jsToLower id rawHeaders [] q
  cases hf : rawHeaders.reverse.find? (fun h => jsToLower h = q) with
  | none => rw [hf] at h1; exact h1
  | some y => rw [hf] at h1; exact h1

theorem dic_some_lower (rawHeaders : List String) (q orig : String)
    (h : alookup (getResponseRawHeaderNames rawHeaders) q = some orig) :
    jsToLower orig = q ∧ orig ∈ rawHeaders := by
  rw [alookup_dic] at h
  cases hf : rawHeaders.reverse.find? (fun x => jsToLower x = q) with
  | none => rw [hf] at h; cases h
  | some y =>
    rw [hf] at h
    have hy : y = orig := by simpa using h
    subst hy
    have hp : jsToLower y = q := by simpa using List.find?_some hf
    exact ⟨hp, List.mem_reverse.mp (List.mem_of_find?_eq_some hf)⟩

theorem alookup_adjust (rawHeaders : List String) (headers : List (String × String))
    (q : String) :
    alookup (adjustResponseHeaders rawHeaders headers) q =
      match headers.reverse.find?
          (fun kv => adjKey (getResponseRawHeaderNames rawHeaders) kv.1 = q) with
      | some kv => some kv.2
      | none => none := by
  unfold adjustResponseHeaders
  have hstep : adjustStep (getResponseRawHeaderNames rawHeaders) =
      fun acc kv =>
        upsert acc (adjKey (getResponseRawHeaderNames rawHeaders) kv.1) kv.2 :=
    funext fun acc => funext fun kv => adjustStep_eq _ acc kv
  rw [hstep]
  have h1 := alookup_foldl_upsert
    (fun kv => adjKey (getResponseRawHeaderNames rawHeaders) kv.1)
    (fun kv => kv.2) headers [] q
  cases hf : headers.reverse.find?
      (fun kv => adjKey (getResponseRawHeaderNames rawHeaders) kv.1 = q) with
  | none => rw [hf] at h1; exact h1
  | some kv => rw [hf] at h1; exact h1

theorem mem_adjust (rawHeaders : List String) (headers : List (String × String))
    (kv : String × String)
    (h : kv ∈ adjustResponseHeaders rawHeaders headers) :
    ∃ x ∈ headers,
      kv = (adjKey (getResponseRawHeaderNames rawHeaders) x.1, x.2) := by
  unfold adjustResponseHeaders at h
  have hstep : adjustStep (getResponseRawHeaderNames rawHeaders) =
      fun acc kv =>
        upsert acc (adjKey (getResponseRawHeaderNames rawHeaders) kv.1) kv.2 :=
    funext fun acc => funext fun kv => adjustStep_eq _ acc kv
  rw [hstep] at h
  rcases mem_foldl_upsert _ _ headers [] kv h with hin | hex
  · cases hin
  · exact hex

theorem mem_nodup_key_inj (m : List (String × String))
    (hnd : (m.map Prod.fst).Nodup) (kv1 kv2 : String × String)
    (h1 : kv1 ∈ m) (h2 : kv2 ∈ m) (hk : kv1.1 = kv2.1) : kv1 = kv2 := by
  have e1 := alookup_of_mem_nodup m kv1.1 kv1.2 (by simpa using h1) hnd
  have e2 := alookup_of_mem_nodup m kv2.1 kv2.2 (by simpa using h2) hnd
  rw [hk, e2] at e1
  have hv : kv2.2 = kv1.2 := by simpa using e1
  cases kv1
  cases kv2
  simp_all

/-- Counterexample to C1 as stated: with raw header name `Content-Type`
and transport header `content-type`, the adjusted mapping holds only the
original-case key; the lowercase key is not retained. -/
theorem header_case_restoration_counterexample :
    adjustResponseHeaders ["Content-Type"] [("content-type", "text/plain")] =
      [("Content-Type", "text/plain")] ∧
    alookup (adjustResponseHeaders ["Content-Type"] [("content-type", "text/plain")])
      "content-type" = none := by decide

/-- C1 (amended): for every transport header key with an original-case
name in the raw list, the adjusted mapping holds that value under the
restored original-case name; when the two spellings differ the lowercase
key is replaced, not retained.  Hypotheses: transport header keys are
unique and already lowercase, as the `request` package delivers them. -/
theorem header_case_restoration_amended
    (rawHeaders : List String) (headers : List (String × String)) (h v orig : String)
    (hKU : (headers.map Prod.fst).Nodup)
    (hLC : ∀ kv ∈ headers, jsToLower kv.1 = kv.1)
    (hmem : (h, v) ∈ headers)
    (halo : alookup (getResponseRawHeaderNames rawHeaders) h = some orig) :
    alookup (adjustResponseHeaders rawHeaders headers) orig = some v ∧
    (orig ≠ h → alookup (adjustResponseHeaders rawHeaders headers) h = none) := by
  have hlow := dic_some_lower rawHeaders h orig halo
  have hadjh : adjKey (getResponseRawHeaderNames rawHeaders) h = orig := by
    unfold adjKey
    rw [halo]
  have hhl : jsToLower h = h := hLC (h, v) hmem
  constructor
  · rw [alookup_adjust]
    have hfind : headers.reverse.find?
        (fun kv => adjKey (getResponseRawHeaderNames rawHeaders) kv.1 = orig) =
        some (h, v) := by
      apply find?_unique _ _ _ (List.mem_reverse.mpr hmem) (by simp [hadjh])
      intro kv hkv hp
      have hkv2 : kv ∈ headers := List.mem_reverse.mp hkv
      have hpk : adjKey (getResponseRawHeaderNames rawHeaders) kv.1 = orig := by
        simpa using hp
      have hkey : kv.1 = h := by
        unfold adjKey at hpk
        cases hlk : alookup (getResponseRawHeaderNames rawHeaders) kv.1 with
        | some o2 =>
          rw [hlk] at hpk
          have hpk2 : o2 = orig := hpk
          have hl2 := dic_some_lower rawHeaders kv.1 o2 hlk
          rw [hpk2] at hl2
          rw [← hl2.1]
          exact hlow.1
        | none =>
          rw [hlk] at hpk
          have hpk2 : kv.1 = orig := hpk
          have hklow := hLC kv hkv2
          rw [hpk2] at hklow
          have horig_h : orig = h := hklow.symm.trans hlow.1
          exfalso
          have hsame : alookup (getResponseRawHeaderNames rawHeaders) kv.1 =
              alookup (getResponseRawHeaderNames rawHeaders) h := by
            rw [hpk2, horig_h]
          rw [hlk, halo] at hsame
          cases hsame
      exact mem_nodup_key_inj headers hKU kv (h, v) hkv2 hmem hkey
    rw [hfind]
  · intro hne
    rw [alookup_adjust]
    have hfind : headers.reverse.find?
        (fun kv => adjKey (getResponseRawHeaderNames rawHeaders) kv.1 = h) = none := by
      rw [List.find?_eq_none]
      intro kv hkv hp
      have hkv2 : kv ∈ headers := List.mem_reverse.mp hkv
      have hpk : adjKey (getResponseRawHeaderNames rawHeaders) kv.1 = h := by
        simpa using hp
      unfold adjKey at hpk
      cases hlk : alookup (getResponseRawHeaderNames rawHeaders) kv.1 with
      | some o2 =>
        rw [hlk] at hpk
        have hpk2 : o2 = h := hpk
        have hl2 := dic_some_lower rawHeaders kv.1 o2 hlk
        rw [hpk2] at hl2
        have hk1 : kv.1 = h := by
          rw [← hl2.1]
          exact hhl
        have hsame : alookup (getResponseRawHeaderNames rawHeaders) kv.1 =
            alookup (getResponseRawHeaderNames rawHeaders) h := by
          rw [hk1]
        rw [hlk, halo] at hsame
        have ho : o2 = orig := by simpa using hsame
        exact hne (ho.symm.trans hpk2)
      | none =>
        rw [hlk] at hpk
        have hpk2 : kv.1 = h := hpk
        have hsame : alookup (getResponseRawHeaderNames rawHeaders) kv.1 =
            alookup (getResponseRawHeaderNames rawHeaders) h := by
          rw [hpk2]
        rw [hlk, halo] at hsame
        cases hsame
    rw [hfind]

/-- Witness for the amended C1 at the round-trip example of the spec. -/
theorem header_case_restoration_amended_witness :
    alookup (adjustResponseHeaders ["Content-Type"] [("content-type", "text/plain")])
      "Content-Type" = some "text/plain" ∧
    alookup (adjustResponseHeaders ["Content-Type"] [("content-type", "text/plain")])
      "content-type" = none :=
  have happ := header_case_restoration_amended ["Content-Type"]
    [("content-type", "text/plain")] "content-type" "text/plain" "Content-Type"
    (by decide) (by decide) (by decide) (by decide)
  ⟨happ.1, happ.2 (by decide)⟩

/-- C10: every entry of the adjusted response header mapping carries
exactly the value stored in the transport mapping under the lowercased
form of its key — normalization only re-cases key names.  Hypotheses:
transport header keys are unique and already lowercase. -/
theorem header_value_preservation
    (rawHeaders : List String) (headers : List (String × String))
    (hKU : (headers.map Prod.fst).Nodup)
    (hLC : ∀ kv ∈ headers, jsToLower kv.1 = kv.1) :
    ∀ kv ∈ adjustResponseHeaders rawHeaders headers,
      alookup headers (jsToLower kv.1) = some kv.2 := by
  intro kv hkv
  rcases mem_adjust rawHeaders headers kv hkv with ⟨x, hx, rfl⟩
  have hxl := hLC x hx
  show alookup headers
    (jsToLower (adjKey (getResponseRawHeaderNames rawHeaders) x.1)) = some x.2
  unfold adjKey
  cases hlk : alookup (getResponseRawHeaderNames rawHeaders) x.1 with
  | some orig =>
    have hl2 := dic_some_lower rawHeaders x.1 orig hlk
    show alookup headers (jsToLower orig) = some x.2
    rw [hl2.1]
    exact alookup_of_mem_nodup headers x.1 x.2 (by simpa using hx) hKU
  | none =>
    show alookup headers (jsToLower x.1) = some x.2
    rw [hxl]
    exact alookup_of_mem_nodup headers x.1 x.2 (by simpa using hx) hKU

/-- Witness for C10 at the round-trip example. -/
theorem header_value_preservation_witness :
    alookup [("content-type", "text/plain")] (jsToLower "Content-Type") =
      some "text/plain" :=
  header_value_preservation ["Content-Type"] [("content-type", "text/plain")]
    (by decide) (by decide) ("Content-Type", "text/plain") (by decide)

theorem getHeaderValue_mem_unique (hs : List (String × String)) (name k v : String)
    (hmem : (k, v) ∈ hs) (hmatch : jsToLower k = jsToLower name)
    (huniq : ∀ kv ∈ hs, jsToLower kv.1 = jsToLower name → kv = (k, v)) :
    getHeaderValue (some hs) name = some v := by
  induction hs with
  | nil => cases hmem
  | cons a t ih =>
    show (a :: t).findSome?
      (fun kv => if jsToLower kv.1 = jsToLower name then some kv.2 else none) = some v
    rw [List.findSome?_cons]
    by_cases hma : jsToLower a.1 = jsToLower name
    · have ha := huniq a (by simp) hma
      simp [ha, hmatch]
    · have hkt : (k, v) ∈ t := by
        rcases List.mem_cons.mp hmem with heq | h2
        · exact absurd
            (by rw [show a.1 = k from (congrArg Prod.fst heq).symm]; exact hmatch) hma
        · exact h2
      simp only [if_neg hma]
      exact ih hkt (fun kv hkv hm => huniq kv (by simp [hkv]) hm)

/-- Counterexample to the injection half of C8 as stated: a `User-Agent`
header with empty value is present, yet the defaulting step still fires. -/
theorem user_agent_injection_counterexample :
    userAgentInjected [("User-Agent", "")] = true ∧
    ∃ kv ∈ [("User-Agent", "")], jsToLower kv.1 = jsToLower "User-Agent" := by decide

/-- C8 (amended): `getHeaderValue` finds the entry whose key equals the
queried name up to case (stored `Content-Type`, queried `content-type`);
and the default `User-Agent` is injected iff the request has no
`User-Agent` header under case-insensitive comparison or the first such
header has the empty value (JS truthiness), the latter disjunct being the
amendment. -/
theorem header_lookup_and_user_agent_amended
    (hs : List (String × String)) (name k v : String)
    (hmem : (k, v) ∈ hs) (hmatch : jsToLower k = jsToLower name)
    (huniq : ∀ kv ∈ hs, jsToLower kv.1 = jsToLower name → kv = (k, v)) :
    getHeaderValue (some hs) name = some v ∧
    getHeaderValue (some [("Content-Type", "application/json")]) "content-type" =
      some "application/json" ∧
    (∀ hs2 : List (String × String),
      userAgentInjected hs2 = true ↔
        ((∀ kv ∈ hs2, jsToLower kv.1 ≠ jsToLower "User-Agent") ∨
          getHeaderValue (some hs2) "User-Agent" = some "")) := by
  refine ⟨getHeaderValue_mem_unique hs name k v hmem hmatch huniq, by decide, ?_⟩
  intro hs2
  unfold userAgentInjected
  cases hg : getHeaderValue (some hs2) "User-Agent" with
  | none =>
    simp only [jsTruthyStr, Bool.not_false, true_iff]
    refine Or.inl ?_
    intro kv hkv heq
    have hn := List.findSome?_eq_none_iff.mp
      (show hs2.findSome? (fun kv =>
        if jsToLower kv.1 = jsToLower "User-Agent" then some kv.2 else none) = none
        from hg) kv hkv
    rw [if_pos heq] at hn
    cases hn
  | some s =>
    obtain ⟨a, ha, hfa⟩ := List.exists_of_findSome?_eq_some
      (show hs2.findSome? (fun kv =>
        if jsToLower kv.1 = jsToLower "User-Agent" then some kv.2 else none) = some s
        from hg)
    by_cases hc : jsToLower a.1 = jsToLower "User-Agent"
    · simp only [jsTruthyStr]
      constructor
      · intro hinj
        have hs0 : s = "" := by simpa using hinj
        exact Or.inr (by rw [hs0])
      · rintro (hall | hsome)
        · exact absurd hc (hall a ha)
        · have hs0 : s = "" := by simpa using hsome
          simp [hs0]
    · rw [if_neg hc] at hfa
      cases hfa

/-- Witness for the amended C8 at the lookup example of the spec. -/
theorem header_lookup_and_user_agent_amended_witness :
    getHeaderValue (some [("Content-Type", "application/json")]) "content-type" =
      some "application/json" :=
  (header_lookup_and_user_agent_amended [("Content-Type", "application/json")]
    "content-type" "Content-Type" "application/json"
    (by decide) (by decide) (by decide)).1
